import Mathlib

/-!
Shallow embedding of the chokepoint traffic shaper (hypervideo/chokepoint).

Time model: `Instant` and `Duration` are both `Nat` (nanoseconds, say).
`Instant + Duration` is `Nat` addition; `Instant - Duration` and
`Instant.checked_duration_since` are modelled with truncated / guarded
natural subtraction, matching the saturating / checked operations the
source uses where it matters.

The `BTreeMap<Instant, T>` of `UnorderedQueue` is embedded as an
association list sorted by strictly increasing key, with the map's
insert-replaces-on-equal-key semantics.
-/

namespace Chokepoint

/-- `BTreeMap::insert` on a key-sorted association list: keeps the list
sorted; an existing entry with an equal key is REPLACED by the new value
(this is the semantics of `self.delay_queue.insert(instant, item)` in
`UnorderedQueue::push_back`). -/
def btreeInsert {T : Type} (k : Nat) (v : T) : List (Nat × T) → List (Nat × T)
  | [] => [(k, v)]
  | (k₁, v₁) :: rest =>
    if k < k₁ then (k, v) :: (k₁, v₁) :: rest
    else if k = k₁ then (k, v) :: rest
    else (k₁, v₁) :: btreeInsert k v rest

/-- Keys of an association list. -/
def keysOf {T : Type} (l : List (Nat × T)) : List Nat := l.map Prod.fst

/-- The keys of the delay map are strictly increasing (the `BTreeMap`
representation invariant). -/
def SortedKeys {T : Type} (l : List (Nat × T)) : Prop :=
  l.Pairwise (fun a b => a.1 < b.1)

instance {T : Type} (l : List (Nat × T)) : Decidable (SortedKeys l) :=
  inferInstanceAs (Decidable (l.Pairwise _))

/-- `UnorderedQueue<T>` from `stream.rs`: a ready FIFO (`queue`, front at the
head of the list) and a delay map (`delay_queue`). -/
structure UnorderedQueue (T : Type) where
  queue : List T
  delay_queue : List (Nat × T)
deriving Repr, DecidableEq

namespace UnorderedQueue

def empty {T : Type} : UnorderedQueue T := ⟨[], []⟩

/-- `fn pending(&self) -> bool`. -/
def pending {T : Type} (q : UnorderedQueue T) : Bool :=
  !q.queue.isEmpty || !q.delay_queue.isEmpty

/-- `fn deadline(&self) -> Option<Instant>`: smallest key of the delay map
(its first entry, by sortedness). -/
def deadline {T : Type} (q : UnorderedQueue T) : Option Nat :=
  q.delay_queue.head?.map Prod.fst

/-- `fn expire(&mut self, now: Instant)`:
`split_off(&now)` keeps every entry with key `>= now` in the map and hands
back the entries with key `< now`, whose values are appended to the ready
queue in ascending key order. -/
def expire {T : Type} (now : Nat) (q : UnorderedQueue T) : UnorderedQueue T :=
  { queue := q.queue ++ (q.delay_queue.takeWhile (fun e => e.1 < now)).map Prod.snd
    delay_queue := q.delay_queue.dropWhile (fun e => e.1 < now) }

/-- `fn pop_front(&mut self) -> Option<T>`. -/
def pop_front {T : Type} (q : UnorderedQueue T) : Option T × UnorderedQueue T :=
  match q.queue with
  | [] => (none, q)
  | x :: rest => (some x, { q with queue := rest })

/-- `fn push_back(&mut self, item: T, delay: Option<Duration>, now: Instant)`. -/
def push_back {T : Type} (item : T) (delay : Option Nat) (now : Nat)
    (q : UnorderedQueue T) : UnorderedQueue T :=
  match delay with
  | some d => { q with delay_queue := btreeInsert (now + d) item q.delay_queue }
  | none => { q with queue := q.queue ++ [item] }

/-- `fn push_front(&mut self, item: T, delay: Option<Duration>, now: Instant)`. -/
def push_front {T : Type} (item : T) (delay : Option Nat) (now : Nat)
    (q : UnorderedQueue T) : UnorderedQueue T :=
  match delay with
  | some d => { q with delay_queue := btreeInsert (now + d) item q.delay_queue }
  | none => { q with queue := item :: q.queue }

/-- All items currently held by the queue (ready ones first, then the
delayed ones in map order). -/
def itemsOf {T : Type} (q : UnorderedQueue T) : List T :=
  q.queue ++ q.delay_queue.map Prod.snd

end UnorderedQueue

/-- `OrderedQueue<T>` from `stream.rs`: a single FIFO of
`(Option<Instant>, T)` plus a count of delayed entries. -/
structure OrderedQueue (T : Type) where
  queue : List (Option Nat × T)
  delayed : Nat
deriving Repr, DecidableEq

namespace OrderedQueue

def empty {T : Type} : OrderedQueue T := ⟨[], 0⟩

/-- `fn pending(&self) -> bool`. -/
def pending {T : Type} (q : OrderedQueue T) : Bool :=
  !q.queue.isEmpty

/-- `fn deadline(&self) -> Option<Instant>`: deadline of the head entry. -/
def deadline {T : Type} (q : OrderedQueue T) : Option Nat :=
  q.queue.head?.bind Prod.fst

/-- `fn pop_front(&mut self, now: Instant) -> Option<T>`: examines only the
head; a head with deadline `instant > now` blocks the whole queue. -/
def pop_front {T : Type} (now : Nat) (q : OrderedQueue T) :
    Option T × OrderedQueue T :=
  match q.queue with
  | (some instant, item) :: rest =>
    if instant > now then (none, q)
    else (some item, { queue := rest, delayed := q.delayed - 1 })
  | (none, item) :: rest => (some item, { q with queue := rest })
  | [] => (none, q)

/-- `fn push(&mut self, front: bool, item: T, delay: Option<Duration>, now: Instant)`. -/
def push {T : Type} (front : Bool) (item : T) (delay : Option Nat) (now : Nat)
    (q : OrderedQueue T) : OrderedQueue T :=
  let entry : Option Nat × T :=
    match delay with
    | some d => (some (now + d), item)
    | none => (none, item)
  let delayed := match delay with
    | some _ => q.delayed + 1
    | none => q.delayed
  if front then { queue := entry :: q.queue, delayed := delayed }
  else { queue := q.queue ++ [entry], delayed := delayed }

/-- Items currently held, in queue order. -/
def itemsOf {T : Type} (q : OrderedQueue T) : List T :=
  q.queue.map Prod.snd

end OrderedQueue

/-- `BandwidthLimiter` from `bandwidth_limiter.rs`: a sliding window of
`(timestamp, weight)` records with a running sum `current_burden`. -/
structure BandwidthLimiter where
  limit : Nat
  current_burden : Nat
  requests : List (Nat × Nat)
  window : Nat
deriving Repr, DecidableEq

namespace BandwidthLimiter

/-- `fn new(limit: usize, window: Duration) -> Self` (other fields default). -/
def new (limit window : Nat) : BandwidthLimiter :=
  { limit := limit, current_burden := 0, requests := [], window := window }

/-- `fn capacity_left(&self) -> usize`: `limit.saturating_sub(current_burden)`;
natural subtraction is already saturating. -/
def capacity_left (s : BandwidthLimiter) : Nat :=
  s.limit - s.current_burden

/-- `fn limit_reached(&self) -> bool`. -/
def limit_reached (s : BandwidthLimiter) : Bool :=
  s.capacity_left == 0

/-- `fn deadline_duration(&self, now: Instant) -> Option<Duration>`:
`(oldest.timestamp + window).checked_duration_since(now)`, which is `none`
when there is no record or when the deadline already passed. -/
def deadline_duration (now : Nat) (s : BandwidthLimiter) : Option Nat :=
  s.requests.head?.bind fun e =>
    let deadline := e.1 + s.window
    if now ≤ deadline then some (deadline - now) else none

/-- `fn update_at(&mut self, now: Instant)`: count the contiguous prefix of
records with `timestamp < now - window`, drain it while subtracting each
drained weight from `current_burden`, keep the rest. The source returns
early when the prefix is empty. -/
def update_at (now : Nat) (s : BandwidthLimiter) : BandwidthLimiter :=
  let cutoff := now - s.window
  let drained := s.requests.takeWhile (fun e => e.1 < cutoff)
  if drained.length = 0 then s
  else
    { s with
      requests := s.requests.dropWhile (fun e => e.1 < cutoff)
      current_burden := s.current_burden - (drained.map Prod.snd).sum }

/-- `fn add_request_at(&mut self, weight: usize, now: Instant)`. -/
def add_request_at (weight now : Nat) (s : BandwidthLimiter) : BandwidthLimiter :=
  update_at now
    { s with
      requests := s.requests ++ [(now, weight)]
      current_burden := s.current_burden + weight }

end BandwidthLimiter

/-- `ChokeSettingsOrder` from `settings.rs`. -/
inductive ChokeSettingsOrder where
  | Unordered
  | Ordered
  | Backpressure
deriving Repr, DecidableEq

/-- The tagged queue variant `Queue<T>` from `stream.rs`.
(`Backpressure` ordering uses the `Unordered` structure.) -/
inductive Queue (T : Type) where
  | unordered (q : UnorderedQueue T)
  | ordered (q : OrderedQueue T)
deriving Repr, DecidableEq

namespace Queue

/-- `fn queue_for_ordering(ordering: ChokeSettingsOrder) -> Self`. -/
def queue_for_ordering {T : Type} (ordering : ChokeSettingsOrder) : Queue T :=
  match ordering with
  | .Ordered => .ordered OrderedQueue.empty
  | .Unordered | .Backpressure => .unordered UnorderedQueue.empty

def pending {T : Type} : Queue T → Bool
  | .unordered q => q.pending
  | .ordered q => q.pending

def deadline {T : Type} : Queue T → Option Nat
  | .unordered q => q.deadline
  | .ordered q => q.deadline

/-- `fn expire(&mut self, now: Instant)`: a no-op for the ordered variant. -/
def expire {T : Type} (now : Nat) : Queue T → Queue T
  | .unordered q => .unordered (q.expire now)
  | .ordered q => .ordered q

/-- `fn pop_front(&mut self, now: Instant) -> Option<T>` (the unordered
variant ignores `now`). -/
def pop_front {T : Type} (now : Nat) : Queue T → Option T × Queue T
  | .unordered q =>
    let r := q.pop_front
    (r.1, .unordered r.2)
  | .ordered q =>
    let r := q.pop_front now
    (r.1, .ordered r.2)

def push_front {T : Type} (item : T) (delay : Option Nat) (now : Nat) :
    Queue T → Queue T
  | .unordered q => .unordered (q.push_front item delay now)
  | .ordered q => .ordered (q.push true item delay now)

def push_back {T : Type} (item : T) (delay : Option Nat) (now : Nat) :
    Queue T → Queue T
  | .unordered q => .unordered (q.push_back item delay now)
  | .ordered q => .ordered (q.push false item delay now)

/-- All items currently held by either variant. -/
def itemsOf {T : Type} : Queue T → List T
  | .unordered q => q.itemsOf
  | .ordered q => q.itemsOf

end Queue

/-- The item capability `ChokeItem` from `item.rs`, as pure functions
(`corrupt` is an in-place mutation in the source, `duplicate` may decline). -/
structure ItemOps (T : Type) where
  byte_len : T → Nat
  corrupt : T → T
  duplicate : T → Option T

/-- `BandwithLimit` as used by `stream.rs`: the sliding window plus the
only-drop-when-reached flag. The `drop_ratio` Bernoulli draw itself is part
of the per-item random oracle (`ItemDecision.bandwidthDraw`). -/
structure BandwidthLimit where
  window : BandwidthLimiter
  only_drop_when_bandwidth_limit_reached : Bool
deriving Repr, DecidableEq

/-- One item's worth of the engine's random oracle: the outcomes of the
four `rng.gen::<f64>() < p` Bernoulli draws and of the latency sampler. -/
structure ItemDecision where
  bandwidthDraw : Bool
  dropDraw : Bool
  corruptDraw : Bool
  duplicateDraw : Bool
  delay : Option Nat
deriving Repr, DecidableEq

/-- The all-false / no-delay decision (used when the oracle list runs dry;
counterexamples always supply explicit decisions). -/
def ItemDecision.default : ItemDecision :=
  ⟨false, false, false, false, none⟩

/-- The fields of `ChokeStream<T>` that carry the shaping semantics.
The inner stream is modelled by `ready` (the items it will yield before
suspending) and `ended` (whether it then reports end-of-stream).
Deliberately not modelled: the timers, the live-settings receiver (absorbed
before the poll; none of the claims involve a pending settings update) and
the `packets_per_second` logging counter. -/
structure EngineState (T : Type) where
  queue : Queue T
  bandwidth_limit : Option BandwidthLimit
  ordering : ChokeSettingsOrder
  has_dropped_item : Bool
  total_packets : Nat
  dropped_packets : Nat
  ready : List T
  ended : Bool
deriving Repr, DecidableEq

/-- Result of one `poll_next` call: `Poll::Ready(Some)`, `Poll::Ready(None)`
or `Poll::Pending`. -/
inductive PollResult (T : Type) where
  | item (x : T)
  | ended
  | notReady
deriving Repr, DecidableEq

namespace EngineState

def backpressure {T : Type} (s : EngineState T) : Bool :=
  s.ordering == .Backpressure

/-- The body of the intake loop for one received packet
(`stream.rs` lines 399-448): bandwidth-drop decision, loss, corruption,
latency sampling, duplication, enqueue. -/
def intakeOne {T : Type} (ops : ItemOps T) (now : Nat) (d : ItemDecision)
    (packet : T) (s : EngineState T) : EngineState T :=
  let bandwidth_drop :=
    match s.bandwidth_limit with
    | none => false
    | some limit =>
      if limit.only_drop_when_bandwidth_limit_reached
          && !limit.window.limit_reached then false
      else d.bandwidthDraw
  if bandwidth_drop || d.dropDraw then
    { s with
      dropped_packets := s.dropped_packets + 1
      has_dropped_item := true }
  else
    let packet := if d.corruptDraw then ops.corrupt packet else packet
    let delay := d.delay
    let duplicate := if d.duplicateDraw then ops.duplicate packet else none
    let queue := s.queue.push_back packet delay now
    let queue :=
      match duplicate with
      | some dup => queue.push_back dup none now
      | none => queue
    { s with queue := queue }

/-- The intake loop (`stream.rs` lines 397-460), recursing over the items
the inner stream has ready. Returns the updated state and whether the loop
hit the `Poll::Ready(None) if !queue.pending()` arm, which makes the whole
poll return `Ready(None)` at once. -/
def intakeGo {T : Type} (ops : ItemOps T) (now : Nat) :
    List T → List ItemDecision → EngineState T → EngineState T × Bool
  | [], _, s => if s.ended && !s.queue.pending then (s, true) else (s, false)
  | packet :: rest, ds, s =>
    let s := intakeOne ops now (ds.headD ItemDecision.default) packet
      { s with ready := rest }
    intakeGo ops now rest ds.tail s

/-- The tail of `poll_next` (`stream.rs` lines 511-525): if anything is
still pending, arm the timer and return `Pending`; otherwise poll the inner
stream once more and return its result directly. -/
def pollTail {T : Type} (s : EngineState T) : EngineState T × PollResult T :=
  if s.queue.pending then (s, .notReady)
  else
    match s.ready with
    | x :: rest => ({ s with ready := rest }, .item x)
    | [] => if s.ended then (s, .ended) else (s, .notReady)

/-- One `ChokeStream::poll_next` call (`stream.rs` lines 359-526) at time
`now`, with the random draws for successively admitted items supplied by
`ds`. `add_request` internally re-reads the clock in the source; it is
modelled as happening at `now`. -/
def pollNext {T : Type} (ops : ItemOps T) (now : Nat) (ds : List ItemDecision)
    (s : EngineState T) : EngineState T × PollResult T :=
  let intake :=
    if !s.backpressure || !s.queue.pending then intakeGo ops now s.ready ds s
    else (s, false)
  let s := intake.1
  if intake.2 then (s, .ended)
  else
    let s := { s with queue := s.queue.expire now }
    match s.queue.pop_front now with
    | (some packet, q) =>
      match s.bandwidth_limit with
      | some limit =>
        let w := limit.window.update_at now
        if !w.limit_reached then
          let w := w.add_request_at (ops.byte_len packet) now
          ({ s with
              queue := q
              bandwidth_limit := some { limit with window := w }
              total_packets := s.total_packets + 1 },
            .item packet)
        else
          pollTail
            { s with
              queue := q.push_front packet none now
              bandwidth_limit := some { limit with window := w } }
      | none =>
        ({ s with queue := q, total_packets := s.total_packets + 1 },
          .item packet)
    | (none, _) => pollTail s

end EngineState

/-- Result of one `Sink::poll_flush` call on the adapter:
`Poll::Ready(Ok(()))` or `Poll::Pending`. (With the recording downstream
used by the repository's own tests, no error can arise.) -/
inductive SinkPoll where
  | ready
  | notReady
deriving Repr, DecidableEq

/-- `ChokeSink` from `sink.rs`, with the downstream sink modelled as the
always-ready recording sink the repository's tests use (`TestSink`):
`poll_ready`/`poll_flush`/`poll_close` return `Ready(Ok(()))` and
`start_send` appends to `received`. The `pending_send` field of the source
is never assigned anywhere in `sink.rs` (only `take`n), so it is constantly
`None` and is not modelled. -/
structure SinkState (T : Type) where
  engine : EngineState T
  received : List T
  closing : Bool
deriving Repr, DecidableEq

namespace SinkState

/-- `fn start_send(...)`: hand the item to the unbounded channel feeding the
embedded engine (it cannot fail with the receiver alive). -/
def start_send {T : Type} (item : T) (s : SinkState T) : SinkState T :=
  { s with engine := { s.engine with ready := s.engine.ready ++ [item] } }

/-- Modelled from the spec: `ChokeStream::pending_immediate`, called by
`ChokeSink::poll_flush` (`sink.rs` line 103), is absent from the sources
(no definition exists in `stream.rs`) and the spec does not describe it
either; it is therefore modelled as an unconstrained boolean input
`pendingImmediate` rather than given invented semantics. -/
def pollFlush {T : Type} (ops : ItemOps T) (now : Nat) (ds : List ItemDecision)
    (pendingImmediate : Bool) (s : SinkState T) : SinkState T × SinkPoll :=
  let r := s.engine.pollNext ops now ds
  let eng := r.1
  match r.2 with
  | .item x =>
    -- downstream poll_ready: Ready(Ok); start_send records the item
    let s := { s with engine := eng, received := s.received ++ [x] }
    if s.closing && eng.queue.pending then (s, .notReady)
    else (s, .ready) -- downstream poll_flush: Ready(Ok)
  | .ended => ({ s with engine := eng }, .ready)
  | .notReady =>
    let s := { s with engine := eng }
    if (s.closing && eng.queue.pending) || pendingImmediate then (s, .notReady)
    else (s, .ready)

end SinkState

/-- `<Bytes as ChokeItem>::corrupt` from `item.rs`, with the random draw
supplied as an oracle `r` (the drawn index is `r % len`, reaching every
index of a non-empty item). `rand::rng().random_range(0..self.len())`
panics when the range `0..0` is empty, i.e. on a zero-length item; the
panic is modelled as `none`. -/
def corruptBytes (r : Nat) (b : List Nat) : Option (List Nat) :=
  if b.length = 0 then none
  else
    let index := r % b.length
    some (b.set index (Nat.xor (b.getD index 0) 255))

/-- An operation on the ordered queue as driven by the engine's intake and
emit phases: `OrderedQueue::push` at the tail, or `pop_front`. -/
inductive OrdOp (T : Type) where
  | push (item : T) (delay : Option Nat) (now : Nat)
  | pop (now : Nat)
deriving Repr, DecidableEq

/-- Run a sequence of ordered-queue operations, collecting the emitted
items in order. -/
def runOrdered {T : Type} : List (OrdOp T) → OrderedQueue T →
    OrderedQueue T × List T
  | [], q => (q, [])
  | .push item delay now :: ops, q =>
    runOrdered ops (q.push false item delay now)
  | .pop now :: ops, q =>
    let r := q.pop_front now
    let rest := runOrdered ops r.2
    (rest.1, r.1.toList ++ rest.2)

/-- The items pushed by a sequence of operations, in push order. -/
def pushedItems {T : Type} : List (OrdOp T) → List T
  | [] => []
  | .push item _ _ :: ops => item :: pushedItems ops
  | .pop _ :: ops => pushedItems ops

/-- An operation on the bandwidth limiter: `add_request_at` or `update_at`. -/
inductive LimiterOp where
  | add (weight now : Nat)
  | update (now : Nat)
deriving Repr, DecidableEq

/-- The clock value an operation carries. -/
def LimiterOp.time : LimiterOp → Nat
  | .add _ now => now
  | .update now => now

/-- Run a sequence of limiter operations. -/
def runLimiter : List LimiterOp → BandwidthLimiter → BandwidthLimiter
  | [], s => s
  | .add w now :: ops, s => runLimiter ops (s.add_request_at w now)
  | .update now :: ops, s => runLimiter ops (s.update_at now)

/-! Accounting functions for the end-to-end no-silent-loss invariant of the
sink adapter. They replay the decisions the intake loop makes, so that the
items it drops can be named in a conservation statement; a lemma below ties
each of them to the embedded `intakeOne` / `intakeGo` they mirror. -/

/-- The intake loop's drop condition for one item (`stream.rs` lines
404-412): the bandwidth-ratio draw, gated by the only-when-reached flag,
or the plain loss draw. -/
def dropSelected (bl : Option BandwidthLimit) (d : ItemDecision) : Bool :=
  (match bl with
   | none => false
   | some limit =>
     if limit.only_drop_when_bandwidth_limit_reached
         && !limit.window.limit_reached then false
     else d.bandwidthDraw)
  || d.dropDraw

/-- A push is collision-free: either it carries no delay, or the queue is
the ordered variant (a plain FIFO), or the computed release instant is not
yet a key of the Unordered delay map. -/
def freshPush {T : Type} (q : Queue T) (delay : Option Nat) (now : Nat) :
    Bool :=
  match q, delay with
  | .unordered uq, some d => !(keysOf uq.delay_queue).contains (now + d)
  | _, _ => true

/-- Every push performed while the intake loop consumes `ready` is
collision-free (the loop is replayed alongside `intakeGo`; a duplicate is
pushed with no delay and can never collide). -/
def freshIntake {T : Type} (ops : ItemOps T) (now : Nat) :
    List T → List ItemDecision → EngineState T → Bool
  | [], _, _ => true
  | packet :: rest, ds, s =>
    (if dropSelected s.bandwidth_limit (ds.headD ItemDecision.default) then
      true
     else freshPush s.queue (ds.headD ItemDecision.default).delay now)
    && freshIntake ops now rest ds.tail
        (EngineState.intakeOne ops now (ds.headD ItemDecision.default) packet
          { s with ready := rest })

/-- The items the intake loop selects for probabilistic drop while
consuming `ready` (the bandwidth state is not changed by intake, so the
decision only needs the initial `bl`). -/
def droppedInIntake {T : Type} (bl : Option BandwidthLimit) :
    List T → List ItemDecision → List T
  | [], _ => []
  | packet :: rest, ds =>
    (if dropSelected bl (ds.headD ItemDecision.default) then [packet] else [])
      ++ droppedInIntake bl rest ds.tail

/-- The item a poll result delivers, as a list. -/
def pollEmit {T : Type} : PollResult T → List T
  | .item x => [x]
  | .ended => []
  | .notReady => []

/-- The items one `poll_next` call drops: the intake drops when intake runs
(the same guard as in `poll_next`), nothing otherwise. -/
def pollDropped {T : Type} (ds : List ItemDecision) (s : EngineState T) :
    List T :=
  if !s.backpressure || !s.queue.pending then
    droppedInIntake s.bandwidth_limit s.ready ds
  else []

/-- Every push of one `poll_next` call is collision-free. -/
def pollFresh {T : Type} (ops : ItemOps T) (now : Nat) (ds : List ItemDecision)
    (s : EngineState T) : Bool :=
  if !s.backpressure || !s.queue.pending then freshIntake ops now s.ready ds s
  else true

/-- The expire-and-emit phase of `poll_next` (`stream.rs` lines 463-525),
stated as a standalone function; a lemma below proves `pollNext` equal to
the intake phase followed by this. -/
def pollNextEmit {T : Type} (ops : ItemOps T) (now : Nat) (s : EngineState T) :
    EngineState T × PollResult T :=
  let s := { s with queue := s.queue.expire now }
  match s.queue.pop_front now with
  | (some packet, q) =>
    match s.bandwidth_limit with
    | some limit =>
      let w := limit.window.update_at now
      if !w.limit_reached then
        let w := w.add_request_at (ops.byte_len packet) now
        ({ s with
            queue := q
            bandwidth_limit := some { limit with window := w }
            total_packets := s.total_packets + 1 },
          .item packet)
      else
        EngineState.pollTail
          { s with
            queue := q.push_front packet none now
            bandwidth_limit := some { limit with window := w } }
    | none =>
      ({ s with queue := q, total_packets := s.total_packets + 1 },
        .item packet)
  | (none, _) => EngineState.pollTail s

/-- A decision that neither corrupts nor duplicates: such runs keep each
item literally identical along the pipeline, so item identity can be
tracked by a multiset (corruption mutates an item in place in the source
and duplication only adds copies; neither loses an item). -/
def cleanDecision (d : ItemDecision) : Bool :=
  !d.corruptDraw && !d.duplicateDraw

/-- Everything the sink adapter currently holds or has already delivered:
items handed to the downstream sink, items in the engine's queue, and items
still in the channel between `start_send` and the engine. -/
def pipelineOf {T : Type} (s : SinkState T) : List T :=
  s.received ++ s.engine.queue.itemsOf ++ s.engine.ready

/-- One operation of a sink-adapter run: a `start_send` or a `poll_flush`
(the flush carries its clock value, its random draws and the value of the
spec-modelled `pending_immediate`). -/
inductive SinkOp (T : Type) where
  | send (item : T)
  | flush (now : Nat) (ds : List ItemDecision) (pendingImmediate : Bool)

/-- Run a sequence of sink operations. -/
def runSink {T : Type} (ops : ItemOps T) :
    List (SinkOp T) → SinkState T → SinkState T
  | [], s => s
  | .send x :: tr, s => runSink ops tr (s.start_send x)
  | .flush now ds pi :: tr, s => runSink ops tr (s.pollFlush ops now ds pi).1

/-- The items accepted by `start_send` during a run, in order. -/
def runSent {T : Type} : List (SinkOp T) → List T
  | [] => []
  | .send x :: tr => x :: runSent tr
  | .flush _ _ _ :: tr => runSent tr

/-- The items selected for probabilistic drop during a run. -/
def runDropped {T : Type} (ops : ItemOps T) :
    List (SinkOp T) → SinkState T → List T
  | [], _ => []
  | .send x :: tr, s => runDropped ops tr (s.start_send x)
  | .flush now ds pi :: tr, s =>
    pollDropped ds s.engine ++ runDropped ops tr (s.pollFlush ops now ds pi).1

/-- Every push during the run is collision-free. -/
def runFresh {T : Type} (ops : ItemOps T) :
    List (SinkOp T) → SinkState T → Bool
  | [], _ => true
  | .send x :: tr, s => runFresh ops tr (s.start_send x)
  | .flush now ds pi :: tr, s =>
    pollFresh ops now ds s.engine
      && runFresh ops tr (s.pollFlush ops now ds pi).1

/-- No corruption or duplication draw fires during the run. -/
def runClean {T : Type} : List (SinkOp T) → Bool
  | [] => true
  | SinkOp.send _ :: tr => runClean tr
  | SinkOp.flush _ ds _ :: tr => ds.all cleanDecision && runClean tr

/-- Every deadline held in the queue has been reached at `now`: delayed
entries of the Unordered map expire strictly below `now`, and every dated
entry of the Ordered queue is due at or before `now`. -/
def ripeAt {T : Type} (now : Nat) : Queue T → Bool
  | .unordered q => q.delay_queue.all (fun e => e.1 < now)
  | .ordered q =>
    q.queue.all (fun e =>
      match e.1 with
      | some t => t ≤ now
      | none => true)

/-- Iterate `poll_flush` (with nothing left upstream) `n` times, as the
`poll_close` drain loop does. -/
def flushN {T : Type} (ops : ItemOps T) (now : Nat) (pi : Bool) :
    Nat → SinkState T → SinkState T
  | 0, s => s
  | n + 1, s => flushN ops now pi n (s.pollFlush ops now [] pi).1

/-! Concrete instances used by counterexamples and witnesses. -/

/-- `ChokeItem` operations over `Nat` items: every item is one byte long,
corruption is the identity, duplication yields `item + 100`. -/
def natOps : ItemOps Nat :=
  { byte_len := fun _ => 1
    corrupt := fun x => x
    duplicate := fun x => some (x + 100) }

/-- A Backpressure engine with an empty queue whose upstream has the three
items 1, 2, 3 immediately available. -/
def bpState : EngineState Nat :=
  { queue := .unordered UnorderedQueue.empty
    bandwidth_limit := none
    ordering := .Backpressure
    has_dropped_item := false
    total_packets := 0
    dropped_packets := 0
    ready := [1, 2, 3]
    ended := false }

/-- A random oracle outcome that selects the item for probabilistic drop. -/
def dropDecision : ItemDecision :=
  { bandwidthDraw := false
    dropDraw := true
    corruptDraw := false
    duplicateDraw := false
    delay := none }

/-- An idle engine (default `Ordered` queue) whose upstream has a single
item available; used to drive the sink adapter into the dropped-item case. -/
def sinkEngine : EngineState Nat :=
  { queue := .ordered OrderedQueue.empty
    bandwidth_limit := none
    ordering := .Ordered
    has_dropped_item := false
    total_packets := 0
    dropped_packets := 0
    ready := [7]
    ended := false }

/-- The sink adapter wrapping `sinkEngine`, not yet closing. -/
def sinkDropState : SinkState Nat :=
  { engine := sinkEngine, received := [], closing := false }

/-- A limiter whose single record left the window long ago. -/
def cexLimiter : BandwidthLimiter :=
  { limit := 10, current_burden := 1, requests := [(0, 1)], window := 1 }

/-- A random oracle outcome that delays the item by 5. -/
def delayDecision : ItemDecision :=
  { bandwidthDraw := false
    dropDraw := false
    corruptDraw := false
    duplicateDraw := false
    delay := some 5 }

/-- A closing sink whose engine holds a ready item and a delayed item, with
a quiescent (empty but open) upstream channel. -/
def drainSinkState : SinkState Nat :=
  { engine :=
      { queue := .unordered ⟨[5], [(3, 9)]⟩
        bandwidth_limit := none
        ordering := .Unordered
        has_dropped_item := false
        total_packets := 0
        dropped_packets := 0
        ready := []
        ended := false }
    received := []
    closing := true }

/-! Theorems. -/

/-- C7: `OrderedQueue::pop_front(now)` examines only the head entry: when
the head carries a deadline `t` with `t > now` it returns none and leaves
the queue unchanged (whatever later entries hold, ready or not); a head
whose deadline has passed, or which has no deadline, is popped and its item
returned. -/
theorem ordered_pop_front_examines_head_only {T : Type} (q : OrderedQueue T)
    (now : Nat) :
    (∀ t x rest, q.queue = (some t, x) :: rest → now < t →
      q.pop_front now = (none, q)) ∧
    (∀ t x rest, q.queue = (some t, x) :: rest → t ≤ now →
      q.pop_front now = (some x, ⟨rest, q.delayed - 1⟩)) ∧
    (∀ x rest, q.queue = (none, x) :: rest →
      q.pop_front now = (some x, ⟨rest, q.delayed⟩)) ∧
    (q.queue = [] → q.pop_front now = (none, q)) := by
  refine ⟨?_, ?_, ?_, ?_⟩
  · intro t x rest h ht
    simp [OrderedQueue.pop_front, h, ht]
  · intro t x rest h ht
    simp [OrderedQueue.pop_front, h, Nat.not_lt.mpr ht]
  · intro x rest h
    simp [OrderedQueue.pop_front, h]
  · intro h
    simp [OrderedQueue.pop_front, h]

/-- Witness for C7: a head delayed until 5 blocks the queue at time 3 even
though the second entry has no deadline at all. -/
theorem ordered_pop_front_examines_head_only_witness :
    3 < 5 ∧
    (⟨[(some 5, 1), (none, 2)], 1⟩ : OrderedQueue Nat).pop_front 3
      = (none, (⟨[(some 5, 1), (none, 2)], 1⟩ : OrderedQueue Nat)) :=
  ⟨by decide,
    (ordered_pop_front_examines_head_only _ 3).1 5 1 [(none, 2)] rfl (by decide)⟩

/-- C10: the `Bytes` implementation of `corrupt` draws a random index from
the range `0..len`, so it diverges (panics, modelled as `none`) on every
zero-length item and succeeds on every non-empty item. -/
theorem bytes_corrupt_requires_nonempty :
    (∀ r : Nat, corruptBytes r [] = none) ∧
    (∀ (r : Nat) (b : List Nat), b ≠ [] → (corruptBytes r b).isSome = true) := by
  constructor
  · intro r
    simp [corruptBytes]
  · intro r b hb
    have hlen : ¬ b.length = 0 := by
      simpa [List.length_eq_zero] using hb
    simp [corruptBytes, hlen]

/-- Witness for C10: the empty item makes `corrupt` diverge while the
one-byte item `[7]` is corrupted successfully. -/
theorem bytes_corrupt_requires_nonempty_witness :
    corruptBytes 0 [] = none ∧
    ([7] : List Nat) ≠ [] ∧
    (corruptBytes 3 [7]).isSome = true :=
  ⟨bytes_corrupt_requires_nonempty.1 0, by decide,
    bytes_corrupt_requires_nonempty.2 3 [7] (by decide)⟩

/-- C4 counterexample: `deadline_duration` can return none while a record
is present, because `checked_duration_since` yields none once the oldest
record's deadline lies in the past; so "empty exactly when there are no
records" is false as stated. -/
theorem deadline_duration_some_record_none :
    cexLimiter.deadline_duration 5 = none ∧ cexLimiter.requests ≠ [] := by
  constructor
  · rfl
  · decide

/-- C4 amended: `deadline_duration(now)` returns
`(oldest.timestamp + window) - now` when a record is present and that
deadline has not passed yet, and returns none when there is no record or
when `now` is already past the oldest record's deadline. -/
theorem deadline_duration_window_characterization (s : BandwidthLimiter)
    (now : Nat) :
    (s.requests = [] → s.deadline_duration now = none) ∧
    (∀ t w rest, s.requests = (t, w) :: rest →
      (now ≤ t + s.window →
        s.deadline_duration now = some (t + s.window - now)) ∧
      (t + s.window < now → s.deadline_duration now = none)) := by
  constructor
  · intro h
    simp [BandwidthLimiter.deadline_duration, h]
  · intro t w rest h
    constructor
    · intro hle
      simp [BandwidthLimiter.deadline_duration, h, hle]
    · intro hlt
      simp [BandwidthLimiter.deadline_duration, h, Nat.not_le.mpr hlt]

/-- Witness for C4 amended: a record at time 1 with window 3 gives the
remaining duration 2 at time 2. -/
theorem deadline_duration_window_characterization_witness :
    (⟨10, 2, [(1, 2)], 3⟩ : BandwidthLimiter).requests = (1, 2) :: [] ∧
    2 ≤ 1 + 3 ∧
    (⟨10, 2, [(1, 2)], 3⟩ : BandwidthLimiter).deadline_duration 2 = some 2 :=
  ⟨rfl, by decide,
    ((deadline_duration_window_characterization _ 2).2 1 2 [] rfl).1 (by decide)⟩

/-- C1 counterexample: two accepted items whose sampled release deadlines
map to the same `Instant` in the Unordered delay map: the `BTreeMap`
insert replaces the first entry, so item 10 is silently lost although it
was never selected for probabilistic drop. -/
theorem push_back_equal_instants_lose_item :
    ((UnorderedQueue.empty.push_back 10 (some 5) 0).push_back 20 (some 5) 0).itemsOf
      = [20] ∧
    ¬ 10 ∈ ((UnorderedQueue.empty.push_back 10 (some 5) 0).push_back 20 (some 5) 0).itemsOf := by
  decide

/-- Inserting a fresh key into the sorted association list only adds the new
value: the values afterwards are a permutation of the new value and the old
values. -/
theorem btreeInsert_map_snd_perm {T : Type} (k : Nat) (v : T) :
    ∀ l : List (Nat × T), ¬ k ∈ keysOf l →
      ((btreeInsert k v l).map Prod.snd).Perm (v :: l.map Prod.snd) := by
  intro l
  induction l with
  | nil =>
    intro _
    simp [btreeInsert]
  | cons e t ih =>
    intro hk
    obtain ⟨k₁, v₁⟩ := e
    simp only [keysOf, List.map_cons, List.mem_cons, not_or] at hk
    by_cases h₁ : k < k₁
    · simp [btreeInsert, h₁]
    · have h₂ : ¬ k = k₁ := hk.1
      simp only [btreeInsert, if_neg h₁, if_neg h₂, List.map_cons]
      have hp : ((btreeInsert k v t).map Prod.snd).Perm (v :: t.map Prod.snd) :=
        ih (by simpa [keysOf] using hk.2)
      exact (hp.cons v₁).trans (List.Perm.swap v v₁ _)

/-- C1 amended: `UnorderedQueue::push_back` loses no item as long as the
computed release instant is not already a key of the delay map (and no item
at all when there is no delay): the held items afterwards are exactly the
old ones plus the new one. -/
theorem push_back_fresh_instant_no_loss {T : Type} (q : UnorderedQueue T)
    (item : T) (delay : Option Nat) (now : Nat)
    (h : ∀ d, delay = some d → ¬ (now + d) ∈ keysOf q.delay_queue) :
    (q.push_back item delay now).itemsOf.Perm (item :: q.itemsOf) := by
  cases delay with
  | none =>
    simp only [UnorderedQueue.push_back, UnorderedQueue.itemsOf,
      List.append_assoc, List.singleton_append]
    exact List.perm_middle
  | some d =>
    have hp := btreeInsert_map_snd_perm (now + d) item q.delay_queue (h d rfl)
    simp only [UnorderedQueue.push_back, UnorderedQueue.itemsOf]
    exact ((hp.append_left q.queue).trans List.perm_middle)

/-- Witness for C1 amended: pushing item 9 with delay 4 at time 1 into a
queue holding ready item 1 and an entry delayed until 3 keeps all three
items. -/
theorem push_back_fresh_instant_no_loss_witness :
    (∀ d, (some 4 : Option Nat) = some d →
      ¬ (1 + d) ∈ keysOf ((⟨[1], [(3, 2)]⟩ : UnorderedQueue Nat).delay_queue)) ∧
    ((⟨[1], [(3, 2)]⟩ : UnorderedQueue Nat).push_back 9 (some 4) 1).itemsOf.Perm
      (9 :: (⟨[1], [(3, 2)]⟩ : UnorderedQueue Nat).itemsOf) :=
  ⟨by intro d hd; cases hd; decide,
    push_back_fresh_instant_no_loss _ 9 (some 4) 1
      (by intro d hd; cases hd; decide)⟩

/-- On a list whose keys ascend strictly, the prefix of keys below `now`
is exactly the set of entries with key below `now`: `takeWhile` and
`dropWhile` coincide with the corresponding filters. -/
theorem sorted_takeWhile_lt_eq_filter {T : Type} (now : Nat) :
    ∀ l : List (Nat × T), SortedKeys l →
      l.takeWhile (fun e => e.1 < now) = l.filter (fun e => e.1 < now) ∧
      l.dropWhile (fun e => e.1 < now) = l.filter (fun e => now ≤ e.1) := by
  intro l
  induction l with
  | nil =>
    intro _
    simp
  | cons a t ih =>
    intro hs
    rw [SortedKeys, List.pairwise_cons] at hs
    obtain ⟨ha, ht⟩ := hs
    obtain ⟨iht, ihd⟩ := ih ht
    by_cases h : a.1 < now
    · have hn : ¬ now ≤ a.1 := Nat.not_le.mpr h
      simp [List.takeWhile_cons, List.dropWhile_cons, List.filter_cons, h, hn,
        iht, ihd]
    · have hn : now ≤ a.1 := Nat.not_lt.mp h
      have hall : ∀ b ∈ t, ¬ (decide (b.1 < now) = true) := by
        intro b hb
        have := ha b hb
        simp only [decide_eq_true_eq]
        omega
      have hfil : t.filter (fun e => e.1 < now) = [] :=
        List.filter_eq_nil_iff.mpr hall
      have hself : t.filter (fun e => now ≤ e.1) = t := by
        refine List.filter_eq_self.mpr ?_
        intro b hb
        have := ha b hb
        simp only [decide_eq_true_eq]
        omega
      simp [List.takeWhile_cons, List.dropWhile_cons, List.filter_cons, h, hn,
        hfil, hself]

/-- C3 amended: `expire(now)` moves exactly the delayed entries with key
STRICTLY below `now` to the tail of the ready queue, in ascending deadline
order, and leaves exactly the entries with key at least `now` delayed
(`split_off(&now)` keeps the key `now` itself in the delay map). -/
theorem expire_moves_strictly_earlier_deadlines {T : Type}
    (q : UnorderedQueue T) (now : Nat) (h : SortedKeys q.delay_queue) :
    (q.expire now).queue
      = q.queue ++ (q.delay_queue.filter (fun e => e.1 < now)).map Prod.snd ∧
    (q.expire now).delay_queue = q.delay_queue.filter (fun e => now ≤ e.1) := by
  obtain ⟨ht, hd⟩ := sorted_takeWhile_lt_eq_filter now q.delay_queue h
  constructor
  · simp [UnorderedQueue.expire, ht]
  · simp [UnorderedQueue.expire, hd]

/-- Witness for C3 amended: at time 5 the entry with deadline 3 moves to the
tail of the ready queue and the entry with deadline 7 stays delayed. -/
theorem expire_moves_strictly_earlier_deadlines_witness :
    SortedKeys ((⟨[0], [(3, 1), (7, 2)]⟩ : UnorderedQueue Nat).delay_queue) ∧
    ((⟨[0], [(3, 1), (7, 2)]⟩ : UnorderedQueue Nat).expire 5).queue
      = [0] ++ (([(3, 1), (7, 2)] : List (Nat × Nat)).filter
          (fun e => e.1 < 5)).map Prod.snd ∧
    ((⟨[0], [(3, 1), (7, 2)]⟩ : UnorderedQueue Nat).expire 5).delay_queue
      = ([(3, 1), (7, 2)] : List (Nat × Nat)).filter (fun e => 5 ≤ e.1) :=
  ⟨by decide,
    (expire_moves_strictly_earlier_deadlines _ 5 (by decide)).1,
    (expire_moves_strictly_earlier_deadlines _ 5 (by decide)).2⟩

/-- C3 counterexample: an entry whose deadline equals `now` is NOT moved by
`expire(now)`: `split_off(&now)` keeps every key `>= now` delayed, so the
claimed "key less than or equal to now" boundary is off by one. -/
theorem expire_leaves_exact_deadline_delayed :
    ((⟨[], [(5, 1)]⟩ : UnorderedQueue Nat).expire 5).delay_queue = [(5, 1)] ∧
    ((⟨[], [(5, 1)]⟩ : UnorderedQueue Nat).expire 5).queue = [] ∧
    ¬ (((⟨[], [(5, 1)]⟩ : UnorderedQueue Nat).expire 5).queue = [1] ∧
        ((⟨[], [(5, 1)]⟩ : UnorderedQueue Nat).expire 5).delay_queue = []) := by
  decide

/-- Pushing at the tail of the ordered queue appends the item to the held
items, whatever its delay. -/
theorem OrderedQueue.itemsOf_push_back {T : Type} (q : OrderedQueue T)
    (item : T) (delay : Option Nat) (now : Nat) :
    (q.push false item delay now).itemsOf = q.itemsOf ++ [item] := by
  cases delay <;> simp [OrderedQueue.push, OrderedQueue.itemsOf]

/-- Whatever `pop_front` returns, item conservation holds: the popped item
(if any) followed by the remaining items is the original item list. -/
theorem OrderedQueue.pop_front_toList {T : Type} (q : OrderedQueue T)
    (now : Nat) :
    (q.pop_front now).1.toList ++ (q.pop_front now).2.itemsOf = q.itemsOf := by
  rcases hq : q.queue with _ | ⟨⟨od, x⟩, rest⟩
  · simp [OrderedQueue.pop_front, hq]
  · cases od with
    | none => simp [OrderedQueue.pop_front, hq, OrderedQueue.itemsOf]
    | some t =>
      by_cases ht : t > now
      · simp [OrderedQueue.pop_front, hq, ht]
      · simp [OrderedQueue.pop_front, hq, ht, OrderedQueue.itemsOf]

/-- Running ordered-queue operations conserves items and their order: the
emitted items followed by the still-held items equal the initially held
items followed by the pushed items, in order. -/
theorem runOrdered_invariant {T : Type} :
    ∀ (ops : List (OrdOp T)) (q : OrderedQueue T),
      (runOrdered ops q).2 ++ (runOrdered ops q).1.itemsOf
        = q.itemsOf ++ pushedItems ops := by
  intro ops
  induction ops with
  | nil =>
    intro q
    simp [runOrdered, pushedItems]
  | cons op ops ih =>
    intro q
    cases op with
    | push item delay now =>
      simp only [runOrdered, pushedItems]
      rw [ih, OrderedQueue.itemsOf_push_back]
      simp
    | pop now =>
      simp only [runOrdered, pushedItems]
      rw [List.append_assoc, ih, ← List.append_assoc,
        OrderedQueue.pop_front_toList]

/-- C6: under Ordered ordering the queue is emission-order faithful: for
every sequence of tail pushes (with arbitrary sampled delays) and pops (at
arbitrary instants) starting from the empty queue, the emitted sequence
followed by the still-queued items is exactly the pushed sequence — so if
item A entered before item B and both are emitted, A is emitted before B,
and a later low-delay item waits behind an earlier high-delay head. -/
theorem ordered_queue_emission_preserves_input_order {T : Type}
    (ops : List (OrdOp T)) :
    (runOrdered ops OrderedQueue.empty).2
      ++ (runOrdered ops OrderedQueue.empty).1.itemsOf = pushedItems ops := by
  have h := runOrdered_invariant ops (OrderedQueue.empty (T := T))
  simpa [OrderedQueue.empty, OrderedQueue.itemsOf] using h

/-- `update_at` preserves the burden invariant: it subtracts from
`current_burden` exactly the weights of the records it drains. -/
theorem update_at_burden (s : BandwidthLimiter) (now : Nat)
    (h : s.current_burden = (s.requests.map Prod.snd).sum) :
    (s.update_at now).current_burden
      = ((s.update_at now).requests.map Prod.snd).sum := by
  unfold BandwidthLimiter.update_at
  by_cases hn :
      (s.requests.takeWhile (fun e => e.1 < now - s.window)).length = 0
  · simpa [hn] using h
  · have hsplit :
        s.requests.takeWhile (fun e => e.1 < now - s.window)
          ++ s.requests.dropWhile (fun e => e.1 < now - s.window)
          = s.requests :=
      List.takeWhile_append_dropWhile _ _
    have hsum : (s.requests.map Prod.snd).sum
        = ((s.requests.takeWhile (fun e => e.1 < now - s.window)).map
            Prod.snd).sum
          + ((s.requests.dropWhile (fun e => e.1 < now - s.window)).map
            Prod.snd).sum := by
      conv_lhs => rw [← hsplit]
      rw [List.map_append, List.sum_append]
    simp only [hn, if_neg, ite_false]
    simp [h, hsum, Nat.add_sub_cancel_left]

/-- `add_request_at` preserves the burden invariant. -/
theorem add_request_at_burden (s : BandwidthLimiter) (w now : Nat)
    (h : s.current_burden = (s.requests.map Prod.snd).sum) :
    (s.add_request_at w now).current_burden
      = ((s.add_request_at w now).requests.map Prod.snd).sum := by
  unfold BandwidthLimiter.add_request_at
  apply update_at_burden
  simp [h]

/-- The burden invariant is preserved along every operation sequence. -/
theorem runLimiter_burden :
    ∀ (ops : List LimiterOp) (s : BandwidthLimiter),
      s.current_burden = (s.requests.map Prod.snd).sum →
      (runLimiter ops s).current_burden
        = ((runLimiter ops s).requests.map Prod.snd).sum := by
  intro ops
  induction ops with
  | nil => intro s h; exact h
  | cons op ops ih =>
    intro s h
    cases op with
    | add w now => exact ih _ (add_request_at_burden s w now h)
    | update now => exact ih _ (update_at_burden s now h)

/-- C9: starting from `new`, after any sequence of `add_request_at` and
`update_at` calls with non-decreasing timestamps, `current_burden` equals
the sum of the weights of the records currently held in the window. -/
theorem limiter_burden_equals_window_weight_sum (ops : List LimiterOp)
    (limit window : Nat)
    (_hmono : (ops.map LimiterOp.time).Chain' (fun a b => a ≤ b)) :
    (runLimiter ops (BandwidthLimiter.new limit window)).current_burden
      = ((runLimiter ops
          (BandwidthLimiter.new limit window)).requests.map Prod.snd).sum :=
  runLimiter_burden ops (BandwidthLimiter.new limit window) rfl

/-- Witness for C9: the add/update trace of the repository's own limiter
test, with chronological timestamps. -/
theorem limiter_burden_equals_window_weight_sum_witness :
    (([LimiterOp.add 5 0, .add 5 500, .add 1 500, .update 900].map
        LimiterOp.time).Chain' (fun a b => a ≤ b)) ∧
    (runLimiter [LimiterOp.add 5 0, .add 5 500, .add 1 500, .update 900]
        (BandwidthLimiter.new 10 1000)).current_burden
      = ((runLimiter [LimiterOp.add 5 0, .add 5 500, .add 1 500, .update 900]
          (BandwidthLimiter.new 10 1000)).requests.map Prod.snd).sum :=
  ⟨by norm_num [List.chain'_cons, List.chain'_singleton, LimiterOp.time],
    limiter_burden_equals_window_weight_sum _ 10 1000
      (by norm_num [List.chain'_cons, List.chain'_singleton, LimiterOp.time])⟩

/-- C8: when the duplication draw fires and the item supports duplication,
the intake step enqueues exactly the (possibly corrupted) original with its
sampled delay plus exactly one copy, and the copy is enqueued with NO
delay, whatever delay was sampled for the original. -/
theorem duplicate_enqueues_single_copy_without_delay {T : Type}
    (ops : ItemOps T) (now : Nat) (d : ItemDecision) (packet c : T)
    (s : EngineState T)
    (hbw : d.bandwidthDraw = false) (hdrop : d.dropDraw = false)
    (hdup : d.duplicateDraw = true)
    (hc : ops.duplicate (if d.corruptDraw then ops.corrupt packet else packet)
      = some c) :
    s.intakeOne ops now d packet
      = { s with queue :=
            (s.queue.push_back
              (if d.corruptDraw then ops.corrupt packet else packet)
              d.delay now).push_back c none now } := by
  cases hbl : s.bandwidth_limit with
  | none => simp [EngineState.intakeOne, hbl, hbw, hdrop, hdup, hc]
  | some limit => simp [EngineState.intakeOne, hbl, hbw, hdrop, hdup, hc]

/-- Witness for C8: duplicating item 5 (copy 105) with sampled delay 9
enqueues the original delayed and the copy undelayed. -/
theorem duplicate_enqueues_single_copy_without_delay_witness :
    natOps.duplicate 5 = some 105 ∧
    sinkEngine.intakeOne natOps 0 (⟨false, false, false, true, some 9⟩ :
        ItemDecision) 5
      = { sinkEngine with queue :=
            (sinkEngine.queue.push_back 5 (some 9) 0).push_back 105 none 0 } :=
  ⟨rfl,
    duplicate_enqueues_single_copy_without_delay natOps 0 _ 5 105 sinkEngine
      rfl rfl rfl rfl⟩

/-- `expire` only moves items between the two sub-queues: the held items,
read in order, are unchanged. -/
theorem UnorderedQueue.itemsOf_expire {T : Type} (now : Nat)
    (q : UnorderedQueue T) : (q.expire now).itemsOf = q.itemsOf := by
  simp only [UnorderedQueue.expire, UnorderedQueue.itemsOf, List.append_assoc]
  rw [← List.map_append, List.takeWhile_append_dropWhile]

/-- `pending` is emptiness of the held items. -/
theorem UnorderedQueue.pending_eq_not_isEmpty {T : Type}
    (q : UnorderedQueue T) : q.pending = !q.itemsOf.isEmpty := by
  obtain ⟨qs, ds⟩ := q
  cases qs <;> cases ds <;>
    simp [UnorderedQueue.pending, UnorderedQueue.itemsOf]

/-- `Queue::expire` never changes whether work is pending. -/
theorem Queue.pending_expire {T : Type} (now : Nat) (q : Queue T) :
    (Queue.expire now q).pending = q.pending := by
  cases q with
  | unordered q =>
    simp only [Queue.expire, Queue.pending]
    rw [UnorderedQueue.pending_eq_not_isEmpty,
      UnorderedQueue.pending_eq_not_isEmpty, UnorderedQueue.itemsOf_expire]
  | ordered q => rfl

/-- Pushing an undelayed item at the front always leaves the queue pending. -/
theorem Queue.pending_push_front_none {T : Type} (item : T) (now : Nat)
    (q : Queue T) : (q.push_front item none now).pending = true := by
  cases q with
  | unordered q =>
    simp [Queue.push_front, Queue.pending, UnorderedQueue.push_front,
      UnorderedQueue.pending]
  | ordered q =>
    simp [Queue.push_front, Queue.pending, OrderedQueue.push,
      OrderedQueue.pending]

/-- A pop that yields nothing leaves the queue untouched. -/
theorem Queue.pop_front_none_eq {T : Type} (now : Nat) (q : Queue T)
    (h : (q.pop_front now).1 = none) : (q.pop_front now).2 = q := by
  cases q with
  | unordered q =>
    rcases hq : q.queue with _ | ⟨x, rest⟩
    · simp [Queue.pop_front, UnorderedQueue.pop_front, hq]
    · simp [Queue.pop_front, UnorderedQueue.pop_front, hq] at h
  | ordered q =>
    rcases hq : q.queue with _ | ⟨⟨od, x⟩, rest⟩
    · simp [Queue.pop_front, OrderedQueue.pop_front, hq]
    · cases od with
      | none => simp [Queue.pop_front, OrderedQueue.pop_front, hq] at h
      | some t =>
        by_cases ht : t > now
        · simp [Queue.pop_front, OrderedQueue.pop_front, hq, ht]
        · simp [Queue.pop_front, OrderedQueue.pop_front, hq, ht] at h

/-- With a pending queue, the poll tail arms the timer and reports
`Pending` without touching the inner stream. -/
theorem EngineState.pollTail_of_pending {T : Type} (s : EngineState T)
    (h : s.queue.pending = true) : s.pollTail = (s, .notReady) := by
  simp [EngineState.pollTail, h]

/-- C2 amended: under Backpressure ordering, a poll that starts with a
pending queue runs no intake at all: it consumes nothing from the upstream
source (and hence admits no new item) during that whole `poll_next` call. -/
theorem backpressure_pending_blocks_intake {T : Type} (ops : ItemOps T)
    (now : Nat) (ds : List ItemDecision) (s : EngineState T)
    (hord : s.ordering = .Backpressure) (hpend : s.queue.pending = true) :
    (s.pollNext ops now ds).1.ready = s.ready ∧
    (s.pollNext ops now ds).1.ended = s.ended := by
  have hbp : s.backpressure = true := by
    simp [EngineState.backpressure, hord]
  have hguard : (!s.backpressure || !s.queue.pending) = false := by
    rw [hbp, hpend]
    rfl
  unfold EngineState.pollNext
  rw [hguard]
  simp only [Bool.false_eq_true, if_false]
  have hp₁ : (Queue.expire now s.queue).pending = true := by
    rw [Queue.pending_expire]
    exact hpend
  rcases hpop : Queue.pop_front now (Queue.expire now s.queue) with ⟨o, q₂⟩
  cases o with
  | some packet =>
    cases hbl : s.bandwidth_limit with
    | none =>
      simp [hpop, hbl]
    | some limit =>
      by_cases hlr :
          (limit.window.update_at now).limit_reached = false
      · simp [hpop, hbl, hlr]
      · have hlr' : (limit.window.update_at now).limit_reached = true := by
          revert hlr
          cases (limit.window.update_at now).limit_reached <;> simp
        have htail :
            EngineState.pollTail
              { s with
                queue := q₂.push_front packet none now
                bandwidth_limit :=
                  some { limit with window := limit.window.update_at now } }
            = ({ s with
                queue := q₂.push_front packet none now
                bandwidth_limit :=
                  some { limit with window := limit.window.update_at now } },
              .notReady) :=
          EngineState.pollTail_of_pending _ (Queue.pending_push_front_none _ _ _)
        simp [hpop, hbl, hlr', htail]
  | none =>
    have hq₂ : q₂ = Queue.expire now s.queue := by
      have := Queue.pop_front_none_eq now (Queue.expire now s.queue)
        (by rw [hpop])
      rw [hpop] at this
      exact this
    have htail :
        EngineState.pollTail { s with queue := Queue.expire now s.queue }
          = ({ s with queue := Queue.expire now s.queue }, .notReady) :=
      EngineState.pollTail_of_pending _ hp₁
    simp [hpop, htail]

/-- Witness for C2 amended: a Backpressure engine with one queued item and
one upstream item available admits nothing during the poll. -/
theorem backpressure_pending_blocks_intake_witness :
    ({ bpState with
        queue := Queue.push_back 0 none 0 bpState.queue } : EngineState Nat).ordering
        = .Backpressure ∧
    ({ bpState with
        queue := Queue.push_back 0 none 0 bpState.queue } : EngineState Nat).queue.pending
        = true ∧
    (({ bpState with
        queue := Queue.push_back 0 none 0 bpState.queue } : EngineState Nat).pollNext
          natOps 0 []).1.ready
      = ({ bpState with
          queue := Queue.push_back 0 none 0 bpState.queue } : EngineState Nat).ready :=
  ⟨rfl, by decide,
    (backpressure_pending_blocks_intake natOps 0 []
      { bpState with queue := Queue.push_back 0 none 0 bpState.queue }
      rfl (by decide)).1⟩

/-- C2 counterexample: a Backpressure poll that starts with an empty queue
drains EVERY immediately available upstream item before emitting at most
one: here the upstream has items 1, 2, 3 ready, the poll admits all three
(3 items taken − 1 emitted = 2 > 1) and item 2 and 3 sit in the queue while
item 1 is emitted, so both the "admitted − emitted ≤ 1" bound and "never
takes a new item while any item is pending" are false as stated. -/
theorem backpressure_poll_admits_several :
    bpState.ordering = .Backpressure ∧
    bpState.queue.pending = false ∧
    (bpState.pollNext natOps 0 []).2 = .item 1 ∧
    (bpState.pollNext natOps 0 []).1.ready = [] ∧
    (bpState.pollNext natOps 0 []).1.queue.itemsOf = [2, 3] ∧
    ¬ (bpState.ready.length - (bpState.pollNext natOps 0 []).1.ready.length
        - 1 ≤ 1) := by
  decide

/-- C5: at a state where the embedded engine drops the only in-flight item
(setting the dropped-flag) and reports `Pending`, `ChokeSink::poll_flush`
never consults or clears the flag: whatever `pending_immediate` returns,
`has_dropped_item` stays set after the flush, and the `Ready` it may return
comes from flushing the downstream, not from the dropped-item rule the
documentation describes (`reset_dropped_item` has no caller in the
sources). -/
theorem poll_flush_keeps_dropped_flag_set :
    (sinkDropState.engine.pollNext natOps 0 [dropDecision]).2 = .notReady ∧
    (sinkDropState.engine.pollNext natOps 0 [dropDecision]).1.has_dropped_item
      = true ∧
    (sinkDropState.pollFlush natOps 0 [dropDecision] false).2 = .ready ∧
    (sinkDropState.pollFlush natOps 0 [dropDecision] false).1.engine.has_dropped_item
      = true ∧
    (sinkDropState.pollFlush natOps 0 [dropDecision] true).2 = .notReady ∧
    (sinkDropState.pollFlush natOps 0 [dropDecision] true).1.engine.has_dropped_item
      = true := by
  decide

/-- The intake step never touches the bandwidth window, the end-of-stream
flag or the upstream items. -/
theorem EngineState.intakeOne_untouched {T : Type} (ops : ItemOps T)
    (now : Nat) (d : ItemDecision) (p : T) (s : EngineState T) :
    (s.intakeOne ops now d p).bandwidth_limit = s.bandwidth_limit ∧
    (s.intakeOne ops now d p).ended = s.ended ∧
    (s.intakeOne ops now d p).ready = s.ready := by
  unfold EngineState.intakeOne
  dsimp only
  refine ⟨?_, ?_, ?_⟩ <;> (repeat' split) <;> rfl

/-- A clean decision (no corruption, no duplication) makes the intake step
either drop the raw packet or push the raw packet with its sampled delay,
the drop condition being exactly `dropSelected`. -/
theorem EngineState.intakeOne_clean {T : Type} (ops : ItemOps T) (now : Nat)
    (d : ItemDecision) (p : T) (s : EngineState T)
    (h : cleanDecision d = true) :
    s.intakeOne ops now d p
      = if dropSelected s.bandwidth_limit d then
          { s with
            dropped_packets := s.dropped_packets + 1
            has_dropped_item := true }
        else { s with queue := s.queue.push_back p d.delay now } := by
  have hc : d.corruptDraw = false ∧ d.duplicateDraw = false := by
    simpa only [cleanDecision, Bool.and_eq_true, Bool.not_eq_true'] using h
  simp only [EngineState.intakeOne, dropSelected, hc.1, hc.2,
    Bool.false_eq_true, if_false]

/-- A collision-free `Queue::push_back` adds exactly the new item to the
held items, whichever queue variant. -/
theorem Queue.itemsOf_push_back_perm {T : Type} (q : Queue T) (item : T)
    (delay : Option Nat) (now : Nat) (h : freshPush q delay now = true) :
    (q.push_back item delay now).itemsOf.Perm (item :: q.itemsOf) := by
  cases q with
  | unordered uq =>
    have hfresh : ∀ d, delay = some d → ¬ (now + d) ∈ keysOf uq.delay_queue := by
      intro d hd hmem
      rw [hd] at h
      simp only [freshPush, Bool.not_eq_true'] at h
      exact absurd (List.elem_iff.mpr hmem) (by simp [List.contains] at h; simp [h])
    simpa [Queue.push_back, Queue.itemsOf] using
      push_back_fresh_instant_no_loss uq item delay now hfresh
  | ordered oq =>
    simp only [Queue.push_back, Queue.itemsOf, OrderedQueue.itemsOf_push_back]
    exact List.perm_append_singleton item oq.itemsOf

/-- `Queue::expire` preserves the held items. -/
theorem Queue.itemsOf_expire_eq {T : Type} (now : Nat) (q : Queue T) :
    (Queue.expire now q).itemsOf = q.itemsOf := by
  cases q with
  | unordered uq =>
    simpa [Queue.expire, Queue.itemsOf] using
      UnorderedQueue.itemsOf_expire now uq
  | ordered _ => rfl

/-- `Queue::pop_front` conserves items: the popped item (if any) followed
by the remaining items is the original list. -/
theorem Queue.pop_front_toList_append {T : Type} (now : Nat) (q : Queue T) :
    (Queue.pop_front now q).1.toList ++ (Queue.pop_front now q).2.itemsOf
      = q.itemsOf := by
  cases q with
  | unordered uq =>
    rcases hq : uq.queue with _ | ⟨x, rest⟩ <;>
      simp [Queue.pop_front, UnorderedQueue.pop_front, hq, Queue.itemsOf,
        UnorderedQueue.itemsOf]
  | ordered oq =>
    simpa [Queue.pop_front, Queue.itemsOf] using
      OrderedQueue.pop_front_toList oq now

/-- Pushing an undelayed item at the front prepends it to the held items. -/
theorem Queue.itemsOf_push_front_none {T : Type} (item : T) (now : Nat)
    (q : Queue T) : (q.push_front item none now).itemsOf = item :: q.itemsOf := by
  cases q with
  | unordered uq =>
    simp [Queue.push_front, UnorderedQueue.push_front, Queue.itemsOf,
      UnorderedQueue.itemsOf]
  | ordered oq =>
    simp [Queue.push_front, OrderedQueue.push, Queue.itemsOf,
      OrderedQueue.itemsOf]

/-- A non-pending queue holds no items. -/
theorem Queue.itemsOf_nil_of_not_pending {T : Type} (q : Queue T)
    (h : q.pending = false) : q.itemsOf = [] := by
  cases q with
  | unordered uq =>
    rw [Queue.pending, UnorderedQueue.pending_eq_not_isEmpty,
      Bool.not_eq_false'] at h
    rw [List.isEmpty_iff] at h
    simpa [Queue.itemsOf] using h
  | ordered oq =>
    rw [Queue.pending, OrderedQueue.pending, Bool.not_eq_false'] at h
    rw [List.isEmpty_iff] at h
    simp [Queue.itemsOf, OrderedQueue.itemsOf, h]

/-- The poll tail conserves items: what it emits plus what stays in the
queue and the channel is what was there. -/
theorem EngineState.pollTail_items {T : Type} (s : EngineState T) :
    pollEmit (s.pollTail).2 ++ (s.pollTail).1.queue.itemsOf
        ++ (s.pollTail).1.ready
      = s.queue.itemsOf ++ s.ready := by
  by_cases hp : s.queue.pending = true
  · simp [EngineState.pollTail, hp, pollEmit]
  · have hp' : s.queue.pending = false := by
      revert hp
      cases s.queue.pending <;> simp
    have hitems : s.queue.itemsOf = [] := Queue.itemsOf_nil_of_not_pending _ hp'
    rcases hr : s.ready with _ | ⟨x, rest⟩
    · cases he : s.ended <;>
        simp [EngineState.pollTail, hp', hr, he, pollEmit, hitems]
    · simp [EngineState.pollTail, hp', hr, pollEmit, hitems]

/-- `poll_next` is the intake phase followed by the expire-and-emit phase. -/
theorem EngineState.pollNext_decompose {T : Type} (ops : ItemOps T)
    (now : Nat) (ds : List ItemDecision) (s : EngineState T) :
    s.pollNext ops now ds
      = if !s.backpressure || !s.queue.pending then
          (if (EngineState.intakeGo ops now s.ready ds s).2 then
            ((EngineState.intakeGo ops now s.ready ds s).1, .ended)
           else pollNextEmit ops now (EngineState.intakeGo ops now s.ready ds s).1)
        else pollNextEmit ops now s := by
  by_cases hg : (!s.backpressure || !s.queue.pending) = true <;>
    simp only [EngineState.pollNext, pollNextEmit, hg, Bool.false_eq_true,
      if_true, if_false]

/-- The intake loop leaves the state unchanged when the inner stream has
nothing ready. -/
theorem EngineState.intakeGo_nil_fst {T : Type} (ops : ItemOps T) (now : Nat)
    (ds : List ItemDecision) (s : EngineState T) :
    (EngineState.intakeGo ops now [] ds s).1 = s := by
  unfold EngineState.intakeGo
  split <;> rfl

/-- Conservation through the intake loop: on a clean (no corruption, no
duplication) run whose pushes are collision-free, the items in the queue
afterwards plus the items selected for drop are exactly the consumed
upstream items plus the items that were in the queue; the bandwidth window
and the end-of-stream flag are untouched, and the consumed items leave the
channel. -/
theorem EngineState.intakeGo_spec {T : Type} (ops : ItemOps T) (now : Nat) :
    ∀ (ready : List T) (ds : List ItemDecision) (s : EngineState T),
      (∀ d ∈ ds, cleanDecision d = true) →
      freshIntake ops now ready ds s = true →
      ((EngineState.intakeGo ops now ready ds s).1.queue.itemsOf
          ++ droppedInIntake s.bandwidth_limit ready ds).Perm
        (ready ++ s.queue.itemsOf) ∧
      (EngineState.intakeGo ops now ready ds s).1.bandwidth_limit
        = s.bandwidth_limit ∧
      (EngineState.intakeGo ops now ready ds s).1.ended = s.ended ∧
      (EngineState.intakeGo ops now ready ds s).1.ready
        = (match ready with | [] => s.ready | _ :: _ => []) := by
  intro ready
  induction ready with
  | nil =>
    intro ds s _ _
    rw [EngineState.intakeGo_nil_fst]
    exact ⟨by simp [droppedInIntake], rfl, rfl, rfl⟩
  | cons p rest ih =>
    intro ds s hclean hfresh
    have hcleanHead : cleanDecision (ds.headD ItemDecision.default) = true := by
      cases ds with
      | nil => rfl
      | cons d0 dt => exact hclean d0 (by simp)
    have hcleanTail : ∀ d ∈ ds.tail, cleanDecision d = true := by
      intro d hd
      cases ds with
      | nil => simp at hd
      | cons d0 dt => exact hclean d (List.mem_cons_of_mem d0 hd)
    unfold freshIntake at hfresh
    rw [Bool.and_eq_true] at hfresh
    obtain ⟨hfh, hft⟩ := hfresh
    by_cases hdrop :
        dropSelected s.bandwidth_limit (ds.headD ItemDecision.default) = true
    · -- the item is selected for drop: only counters change
      have hs1 : EngineState.intakeOne ops now (ds.headD ItemDecision.default)
            p { s with ready := rest }
          = { s with
              ready := rest
              dropped_packets := s.dropped_packets + 1
              has_dropped_item := true } := by
        rw [EngineState.intakeOne_clean ops now _ p _ hcleanHead]
        dsimp only
        rw [if_pos hdrop]
      have hgo : EngineState.intakeGo ops now (p :: rest) ds s
          = EngineState.intakeGo ops now rest ds.tail
              { s with
                ready := rest
                dropped_packets := s.dropped_packets + 1
                has_dropped_item := true } := by
        rw [show EngineState.intakeGo ops now (p :: rest) ds s
            = EngineState.intakeGo ops now rest ds.tail
                (EngineState.intakeOne ops now (ds.headD ItemDecision.default)
                  p { s with ready := rest }) from rfl, hs1]
      rw [hs1] at hft
      obtain ⟨ihperm, ihbl, ihend, ihready⟩ := ih ds.tail _ hcleanTail hft
      rw [hgo]
      refine ⟨?_, by rw [ihbl], by rw [ihend], ?_⟩
      · have hdi : droppedInIntake s.bandwidth_limit (p :: rest) ds
            = p :: droppedInIntake s.bandwidth_limit rest ds.tail := by
          rw [show droppedInIntake s.bandwidth_limit (p :: rest) ds
              = (if dropSelected s.bandwidth_limit
                    (ds.headD ItemDecision.default) then [p] else [])
                  ++ droppedInIntake s.bandwidth_limit rest ds.tail from rfl,
            if_pos hdrop]
          rfl
        rw [hdi]
        exact List.Perm.trans List.perm_middle (ihperm.cons p)
      · rw [ihready]
        cases rest <;> rfl
    · -- the item survives and is pushed with its sampled delay
      have hdropF : dropSelected s.bandwidth_limit
          (ds.headD ItemDecision.default) = false := by
        revert hdrop
        cases dropSelected s.bandwidth_limit (ds.headD ItemDecision.default) <;>
          simp
      have hfreshHead : freshPush s.queue
          (ds.headD ItemDecision.default).delay now = true := by
        rw [if_neg hdrop] at hfh
        exact hfh
      have hpush := Queue.itemsOf_push_back_perm s.queue p
        (ds.headD ItemDecision.default).delay now hfreshHead
      have hs1 : EngineState.intakeOne ops now (ds.headD ItemDecision.default)
            p { s with ready := rest }
          = { s with
              ready := rest
              queue := s.queue.push_back p
                (ds.headD ItemDecision.default).delay now } := by
        rw [EngineState.intakeOne_clean ops now _ p _ hcleanHead]
        dsimp only
        rw [if_neg hdrop]
      have hgo : EngineState.intakeGo ops now (p :: rest) ds s
          = EngineState.intakeGo ops now rest ds.tail
              { s with
                ready := rest
                queue := s.queue.push_back p
                  (ds.headD ItemDecision.default).delay now } := by
        rw [show EngineState.intakeGo ops now (p :: rest) ds s
            = EngineState.intakeGo ops now rest ds.tail
                (EngineState.intakeOne ops now (ds.headD ItemDecision.default)
                  p { s with ready := rest }) from rfl, hs1]
      rw [hs1] at hft
      obtain ⟨ihperm, ihbl, ihend, ihready⟩ := ih ds.tail _ hcleanTail hft
      rw [hgo]
      refine ⟨?_, by rw [ihbl], by rw [ihend], ?_⟩
      · have hdi : droppedInIntake s.bandwidth_limit (p :: rest) ds
            = droppedInIntake s.bandwidth_limit rest ds.tail := by
          rw [show droppedInIntake s.bandwidth_limit (p :: rest) ds
              = (if dropSelected s.bandwidth_limit
                    (ds.headD ItemDecision.default) then [p] else [])
                  ++ droppedInIntake s.bandwidth_limit rest ds.tail from rfl,
            if_neg hdrop]
          rfl
        rw [hdi]
        exact ihperm.trans ((hpush.append_left rest).trans List.perm_middle)
      · rw [ihready]
        cases rest <;> rfl

/-- The expire-and-emit phase conserves items: the emitted item plus what
remains in the queue and the channel is what was held before. -/
theorem pollNextEmit_items {T : Type} (ops : ItemOps T) (now : Nat)
    (s : EngineState T) :
    pollEmit (pollNextEmit ops now s).2
        ++ (pollNextEmit ops now s).1.queue.itemsOf
        ++ (pollNextEmit ops now s).1.ready
      = s.queue.itemsOf ++ s.ready := by
  have hcons := Queue.pop_front_toList_append now (Queue.expire now s.queue)
  rw [Queue.itemsOf_expire_eq] at hcons
  unfold pollNextEmit
  dsimp only
  split
  next packet q₂ hpop =>
    rw [hpop] at hcons
    dsimp only [Option.toList] at hcons
    split
    next limit hbl =>
      by_cases hlr : (limit.window.update_at now).limit_reached = false
      · have hc : (!(limit.window.update_at now).limit_reached) = true := by
          rw [hlr]
          rfl
        rw [if_pos hc]
        dsimp only [pollEmit]
        rw [← hcons, List.append_assoc]
      · have hc : ¬ ((!(limit.window.update_at now).limit_reached) = true) := by
          revert hlr
          cases (limit.window.update_at now).limit_reached <;> simp
        rw [if_neg hc]
        rw [EngineState.pollTail_items]
        dsimp only
        rw [Queue.itemsOf_push_front_none, ← hcons, List.append_assoc]
        rfl
    next hbl =>
      dsimp only [pollEmit]
      rw [← hcons, List.append_assoc]
  next q₂ hpop =>
    rw [EngineState.pollTail_items]
    dsimp only
    rw [Queue.itemsOf_expire_eq]

/-- Conservation through one whole `poll_next` call on a clean,
collision-free oracle: the emitted item, the remaining queue and channel
contents, and the items selected for drop are together a permutation of
what the queue and the channel held before. -/
theorem EngineState.pollNext_conservation {T : Type} (ops : ItemOps T)
    (now : Nat) (ds : List ItemDecision) (s : EngineState T)
    (hclean : ∀ d ∈ ds, cleanDecision d = true)
    (hfresh : pollFresh ops now ds s = true) :
    (pollEmit (s.pollNext ops now ds).2
        ++ (s.pollNext ops now ds).1.queue.itemsOf
        ++ (s.pollNext ops now ds).1.ready
        ++ pollDropped ds s).Perm
      (s.queue.itemsOf ++ s.ready) := by
  rw [EngineState.pollNext_decompose]
  by_cases hg : (!s.backpressure || !s.queue.pending) = true
  · rw [if_pos hg]
    unfold pollFresh at hfresh
    rw [if_pos hg] at hfresh
    unfold pollDropped
    rw [if_pos hg]
    obtain ⟨hperm, _hbl, _hend, hready⟩ :=
      EngineState.intakeGo_spec ops now s.ready ds s hclean hfresh
    have hr0 : (EngineState.intakeGo ops now s.ready ds s).1.ready = [] := by
      rw [hready]
      cases s.ready <;> rfl
    by_cases hflag : (EngineState.intakeGo ops now s.ready ds s).2 = true
    · rw [if_pos hflag]
      dsimp only [pollEmit]
      simp only [hr0, List.append_nil, List.nil_append]
      exact hperm.trans List.perm_append_comm
    · rw [if_neg hflag]
      have hemit :=
        pollNextEmit_items ops now (EngineState.intakeGo ops now s.ready ds s).1
      rw [hemit, hr0, List.append_nil]
      exact hperm.trans List.perm_append_comm
  · rw [if_neg hg]
    unfold pollDropped
    rw [if_neg hg, List.append_nil, pollNextEmit_items]

/-- Both branches of an if that differ only in the second component have
the same first component. -/
theorem ite_pair_fst {A B : Type} (c : Prop) [Decidable c] (a : A) (u v : B) :
    (if c then (a, u) else (a, v)).1 = a := by
  split <;> rfl

/-- The state `poll_flush` leaves behind: the engine state after its
`poll_next` call, with the emitted item (if any) handed to the recording
downstream; the flush result itself does not feed back into the state. -/
theorem SinkState.pollFlush_fst {T : Type} (ops : ItemOps T) (now : Nat)
    (ds : List ItemDecision) (pi : Bool) (s : SinkState T) :
    (s.pollFlush ops now ds pi).1
      = { s with
          engine := (s.engine.pollNext ops now ds).1
          received := s.received
            ++ pollEmit (s.engine.pollNext ops now ds).2 } := by
  unfold SinkState.pollFlush
  dsimp only
  rcases hr : s.engine.pollNext ops now ds with ⟨eng, res⟩
  cases res with
  | item x =>
    rw [ite_pair_fst]
    dsimp only [pollEmit]
  | ended =>
    dsimp only [pollEmit]
    rw [List.append_nil]
  | notReady =>
    rw [ite_pair_fst]
    dsimp only [pollEmit]
    rw [List.append_nil]

/-- Conservation through one `poll_flush`: the pipeline afterwards plus the
items selected for drop is a permutation of the pipeline before. -/
theorem SinkState.pollFlush_conservation {T : Type} (ops : ItemOps T)
    (now : Nat) (ds : List ItemDecision) (pi : Bool) (s : SinkState T)
    (hclean : ∀ d ∈ ds, cleanDecision d = true)
    (hfresh : pollFresh ops now ds s.engine = true) :
    (pipelineOf (s.pollFlush ops now ds pi).1
        ++ pollDropped ds s.engine).Perm (pipelineOf s) := by
  have h := EngineState.pollNext_conservation ops now ds s.engine hclean hfresh
  have hgoal : (s.received ++ (pollEmit (s.engine.pollNext ops now ds).2
      ++ ((s.engine.pollNext ops now ds).1.queue.itemsOf
        ++ ((s.engine.pollNext ops now ds).1.ready
          ++ pollDropped ds s.engine)))).Perm
      (s.received ++ (s.engine.queue.itemsOf ++ s.engine.ready)) :=
    List.Perm.append_left _ (by simpa [List.append_assoc] using h)
  simpa [pipelineOf, SinkState.pollFlush_fst, List.append_assoc] using hgoal

/-- `start_send` appends the accepted item to the pipeline. -/
theorem SinkState.start_send_pipeline {T : Type} (item : T) (s : SinkState T) :
    pipelineOf (s.start_send item) = pipelineOf s ++ [item] := by
  simp [pipelineOf, SinkState.start_send, List.append_assoc]

/-- Conservation along a whole sink run: what the pipeline holds afterwards
plus everything dropped during the run is a permutation of what it held
before plus everything accepted during the run. -/
theorem runSink_conservation {T : Type} (ops : ItemOps T) :
    ∀ (tr : List (SinkOp T)) (s : SinkState T),
      runClean tr = true → runFresh ops tr s = true →
      (pipelineOf (runSink ops tr s) ++ runDropped ops tr s).Perm
        (pipelineOf s ++ runSent tr) := by
  intro tr
  induction tr with
  | nil =>
    intro s _ _
    simp [runSink, runDropped, runSent]
  | cons op tr ih =>
    intro s hclean hfresh
    cases op with
    | send x =>
      have h := ih (s.start_send x) hclean hfresh
      simp only [runSink, runDropped, runSent]
      refine h.trans ?_
      rw [SinkState.start_send_pipeline, List.append_assoc,
        List.singleton_append]
    | flush now ds pi =>
      unfold runClean at hclean
      rw [Bool.and_eq_true] at hclean
      obtain ⟨hcleanHead, hcleanTail⟩ := hclean
      unfold runFresh at hfresh
      rw [Bool.and_eq_true] at hfresh
      obtain ⟨hfreshHead, hfreshTail⟩ := hfresh
      have hcleanHead' : ∀ d ∈ ds, cleanDecision d = true := by
        intro d hd
        exact List.all_eq_true.mp hcleanHead d hd
      have hflush := SinkState.pollFlush_conservation ops now ds pi s
        hcleanHead' hfreshHead
      have h := ih (s.pollFlush ops now ds pi).1 hcleanTail hfreshTail
      simp only [runSink, runDropped, runSent]
      refine List.Perm.trans
        (List.Perm.append_left _ List.perm_append_comm) ?_
      rw [← List.append_assoc]
      refine List.Perm.trans (h.append_right _) ?_
      refine List.Perm.trans ?_ (hflush.append_right _)
      rw [List.append_assoc, List.append_assoc]
      exact List.Perm.append_left _ List.perm_append_comm

/-- When every deadline in the queue has been reached, expiring and popping
yields the first held item, the remaining items stay ripe, and nothing else
changes. -/
theorem Queue.pop_expire_ripe {T : Type} (now : Nat) (q : Queue T)
    (hripe : ripeAt now q = true) (x : T) (t : List T)
    (hitems : q.itemsOf = x :: t) :
    (Queue.pop_front now (Queue.expire now q)).1 = some x ∧
    (Queue.pop_front now (Queue.expire now q)).2.itemsOf = t ∧
    ripeAt now (Queue.pop_front now (Queue.expire now q)).2 = true := by
  cases q with
  | unordered uq =>
    have hall : ∀ e ∈ uq.delay_queue, decide (e.1 < now) = true := by
      intro e he
      exact List.all_eq_true.mp hripe e he
    have hdw : uq.delay_queue.dropWhile (fun e => e.1 < now) = [] := by
      rw [List.dropWhile_eq_nil_iff]
      intro e he
      exact hall e he
    have htw : uq.delay_queue.takeWhile (fun e => e.1 < now)
        = uq.delay_queue := by
      have hsplit := List.takeWhile_append_dropWhile
        (p := fun e => decide (e.1 < now)) (l := uq.delay_queue)
      rw [hdw, List.append_nil] at hsplit
      exact hsplit
    have hq : uq.queue ++ uq.delay_queue.map Prod.snd = x :: t := by
      simpa [Queue.itemsOf, UnorderedQueue.itemsOf] using hitems
    have hexp : Queue.expire now (Queue.unordered uq)
        = Queue.unordered ⟨x :: t, []⟩ := by
      simp [Queue.expire, UnorderedQueue.expire, htw, hdw, hq]
    rw [hexp]
    refine ⟨rfl, ?_, rfl⟩
    simp [Queue.pop_front, UnorderedQueue.pop_front, Queue.itemsOf,
      UnorderedQueue.itemsOf]
  | ordered oq =>
    have hexp : Queue.expire now (Queue.ordered oq) = Queue.ordered oq := rfl
    rw [hexp]
    rcases hq : oq.queue with _ | ⟨⟨od, y⟩, rest⟩
    · rw [Queue.itemsOf, OrderedQueue.itemsOf, hq] at hitems
      simp at hitems
    · have hy : y = x ∧ rest.map Prod.snd = t := by
        rw [Queue.itemsOf, OrderedQueue.itemsOf, hq] at hitems
        simpa using hitems
      have hrest : rest.all (fun e =>
          match e.1 with
          | some ti => decide (ti ≤ now)
          | none => true) = true := by
        rw [ripeAt, hq, List.all_cons, Bool.and_eq_true] at hripe
        exact hripe.2
      cases od with
      | none =>
        refine ⟨?_, ?_, ?_⟩ <;>
          simp [Queue.pop_front, OrderedQueue.pop_front, hq, hy.1, hy.2,
            Queue.itemsOf, OrderedQueue.itemsOf, ripeAt, hrest]
      | some ti =>
        have hti : ti ≤ now := by
          rw [ripeAt, hq, List.all_cons, Bool.and_eq_true] at hripe
          simpa using hripe.1
        have hnot : ¬ ti > now := Nat.not_lt.mpr hti
        refine ⟨?_, ?_, ?_⟩ <;>
          simp [Queue.pop_front, OrderedQueue.pop_front, hq, hnot, hy.1, hy.2,
            Queue.itemsOf, OrderedQueue.itemsOf, ripeAt, hrest]

/-- With nothing available upstream and the stream still open, `poll_next`
is just its expire-and-emit phase. -/
theorem EngineState.pollNext_no_ready {T : Type} (ops : ItemOps T) (now : Nat)
    (ds : List ItemDecision) (e : EngineState T)
    (hready : e.ready = []) (hend : e.ended = false) :
    e.pollNext ops now ds = pollNextEmit ops now e := by
  have hflag : (EngineState.intakeGo ops now e.ready ds e).2 = false := by
    rw [hready]
    unfold EngineState.intakeGo
    rw [hend]
    simp
  rw [EngineState.pollNext_decompose]
  by_cases hg : (!e.backpressure || !e.queue.pending) = true
  · rw [if_pos hg, hflag]
    simp only [Bool.false_eq_true, if_false]
    rw [hready, EngineState.intakeGo_nil_fst]
  · rw [if_neg hg]

/-- The emit phase with no bandwidth limit and only ripe deadlines emits
the first held item and keeps the rest ripe. -/
theorem pollNextEmit_drain {T : Type} (ops : ItemOps T) (now : Nat)
    (e : EngineState T) (x : T) (t : List T)
    (hbl : e.bandwidth_limit = none) (hripe : ripeAt now e.queue = true)
    (hitems : e.queue.itemsOf = x :: t) :
    (pollNextEmit ops now e).2 = .item x ∧
    (pollNextEmit ops now e).1.queue.itemsOf = t ∧
    ripeAt now (pollNextEmit ops now e).1.queue = true ∧
    (pollNextEmit ops now e).1.ready = e.ready ∧
    (pollNextEmit ops now e).1.ended = e.ended ∧
    (pollNextEmit ops now e).1.bandwidth_limit = none := by
  obtain ⟨h1, h2, h3⟩ := Queue.pop_expire_ripe now e.queue hripe x t hitems
  unfold pollNextEmit
  dsimp only
  split
  next packet q₂ hpe =>
    rw [hpe] at h1 h2 h3
    dsimp only at h1 h2 h3
    injection h1 with h1
    subst h1
    rw [hbl]
    exact ⟨rfl, h2, h3, rfl, rfl, rfl⟩
  next q₂ hpe =>
    rw [hpe] at h1
    dsimp only at h1
    exact absurd h1 (by simp)

/-- Draining the sink: with the upstream channel empty and still open, no
bandwidth limit, and every queued deadline reached at `now`, iterating
`poll_flush` once per held item hands every held item to the downstream
sink, in order, and empties the queue. -/
theorem flushN_drain {T : Type} (ops : ItemOps T) (now : Nat) (pi : Bool) :
    ∀ (l : List T) (s : SinkState T),
      s.engine.queue.itemsOf = l →
      s.engine.ready = [] → s.engine.ended = false →
      s.engine.bandwidth_limit = none → ripeAt now s.engine.queue = true →
      (flushN ops now pi l.length s).received = s.received ++ l ∧
      (flushN ops now pi l.length s).engine.queue.itemsOf = [] := by
  intro l
  induction l with
  | nil =>
    intro s h1 _ _ _ _
    exact ⟨by simp [flushN], by simp [flushN, h1]⟩
  | cons x t ih =>
    intro s h1 h2 h3 h4 h5
    have hpn := EngineState.pollNext_no_ready ops now [] s.engine h2 h3
    obtain ⟨e1, e2, e3, e4, e5, e6⟩ :=
      pollNextEmit_drain ops now s.engine x t h4 h5 h1
    have hfst := SinkState.pollFlush_fst ops now [] pi s
    rw [hpn, e1] at hfst
    have hstep : flushN ops now pi (x :: t).length s
        = flushN ops now pi t.length (s.pollFlush ops now [] pi).1 := rfl
    rw [hstep]
    obtain ⟨ihr, ihq⟩ := ih (s.pollFlush ops now [] pi).1
      (by rw [hfst]; exact e2) (by rw [hfst]; rw [e4]; exact h2)
      (by rw [hfst]; rw [e5]; exact h3) (by rw [hfst]; exact e6)
      (by rw [hfst]; exact e3)
    refine ⟨?_, ihq⟩
    rw [ihr, hfst]
    dsimp only [pollEmit]
    rw [List.append_assoc]
    rfl

/-- C1 (amended): no item accepted by `start_send` is silently lost unless
it is selected for probabilistic drop inside the engine or its sampled
release deadline collides with one already held in the Unordered delay map.
Part one: with collision-free deadlines (`runFresh`), item accounting is
exact at every point of every start-send/flush run of the sink adapter —
the pipeline (delivered + queued + in-channel items) afterwards plus the
items selected for probabilistic drop is a permutation of the prior
pipeline plus the accepted items, so nothing vanishes (item identity is
tracked literally on runs without corruption or duplication draws, which
mutate an item in place or only add copies and lose nothing).  Part two:
once the producer is quiescent and every queued deadline has passed, one
`poll_flush` per held item — as the `poll_close` drain loop performs —
hands every held item to the downstream sink and empties the queue, so
every surviving accepted item is eventually delivered. -/
theorem choke_sink_no_silent_loss {T : Type} (itemops : ItemOps T) :
    (∀ (tr : List (SinkOp T)) (s : SinkState T),
        runClean tr = true → runFresh itemops tr s = true →
        (pipelineOf (runSink itemops tr s) ++ runDropped itemops tr s).Perm
          (pipelineOf s ++ runSent tr)) ∧
    (∀ (s : SinkState T) (now : Nat) (pi : Bool),
        s.engine.ready = [] → s.engine.ended = false →
        s.engine.bandwidth_limit = none →
        ripeAt now s.engine.queue = true →
        (flushN itemops now pi s.engine.queue.itemsOf.length s).received
            = s.received ++ s.engine.queue.itemsOf ∧
        (flushN itemops now pi
            s.engine.queue.itemsOf.length s).engine.queue.itemsOf = []) :=
  ⟨runSink_conservation itemops,
    fun s now pi h2 h3 h4 h5 =>
      flushN_drain itemops now pi s.engine.queue.itemsOf s rfl h2 h3 h4 h5⟩

/-- Witness for C1 amended: a run that accepts item 1 while the channel
still holds item 7, then flushes once with an oracle that drops 7 and
delays 1 — afterwards the pipeline holds delayed item 1 and the dropped
item 7 is accounted, nothing lost; and draining a sink that holds ready
item 5 and ripe delayed item 9 delivers exactly [5, 9] and empties the
queue. -/
theorem choke_sink_no_silent_loss_witness :
    runClean [SinkOp.send 1,
      SinkOp.flush 0 [dropDecision, delayDecision] false] = true ∧
    runFresh natOps [SinkOp.send 1,
      SinkOp.flush 0 [dropDecision, delayDecision] false] sinkDropState
        = true ∧
    (pipelineOf (runSink natOps [SinkOp.send 1,
          SinkOp.flush 0 [dropDecision, delayDecision] false] sinkDropState)
        ++ runDropped natOps [SinkOp.send 1,
          SinkOp.flush 0 [dropDecision, delayDecision] false]
          sinkDropState).Perm
      (pipelineOf sinkDropState ++ runSent [SinkOp.send 1,
        SinkOp.flush 0 [dropDecision, delayDecision] false]) ∧
    ripeAt 10 drainSinkState.engine.queue = true ∧
    (flushN natOps 10 false
        drainSinkState.engine.queue.itemsOf.length drainSinkState).received
      = drainSinkState.received ++ drainSinkState.engine.queue.itemsOf ∧
    (flushN natOps 10 false
        drainSinkState.engine.queue.itemsOf.length
        drainSinkState).engine.queue.itemsOf = [] :=
  ⟨by decide, by decide,
    (choke_sink_no_silent_loss natOps).1 _ sinkDropState (by decide)
      (by decide),
    by decide,
    ((choke_sink_no_silent_loss natOps).2 drainSinkState 10 false rfl rfl rfl
      (by decide)).1,
    ((choke_sink_no_silent_loss natOps).2 drainSinkState 10 false rfl rfl rfl
      (by decide)).2⟩

end Chokepoint
